import Mathlib

/-!
Verification of the locale-parser key-generation / rewrite / catalog-merge core.

This file gives a shallow embedding, in Lean 4, of the core functions of
`src/main.go`:

* `slugify` (src/main.go lines 632-654),
* `generateKey` (two copies in the source: lines 73-94 and lines 659-689;
  they differ, so both are embedded, as `generateKeyLine73` and `generateKey`),
* `replaceInFile` (lines 96-106 and, identically, 693-703),
* `writeLocaleFile` (lines 108-148 and, identically, 706-748),

together with theorems settling the specification claims about them.

Modelling conventions:

* Go `[]byte` buffers and Go strings are modelled as `List Char` / `String`;
  one `Char` stands for one byte of the Go buffer.  All inputs appearing in
  concrete theorems are ASCII, where this identification is exact.
* Go `uint` byte offsets are modelled as `Nat`; the Go `int` counter values
  are `Nat` as well (they are only ever incremented from zero).
* A Go `map[string]int` is modelled as a function `String → Nat` (total,
  default `0`, exactly Go's map read semantics); a Go `map[string]string`
  is modelled as an association list `List (String × String)`.  Where a Go
  `for ... range` iterates over a map in unspecified order, the theorems
  proved are order-independent characterisations.
* `filepath.Rel` and the third-party `slug.Make` are library code outside
  this repository; they enter the embedding as explicit function parameters
  (`rel`, `slugMake`).  Concrete instantiations used in theorems agree with
  the real functions at every point at which they are applied, as noted at
  each use.
* Go's `strings.ToLower` / `strings.TrimSpace` are modelled on their exact
  ASCII behaviour (`Char.toLower`, `Char.isWhitespace`); the full Unicode
  case table is outside the model and no theorem below depends on it.
* `filepath.Separator` is `'/'` (the build target of the tool).
-/

namespace LocaleTool

/-! ## Decimal rendering of a `Nat` (the model of `fmt.Sprintf("%d", n)`) -/

/-- The character for a single decimal digit `d < 10`. -/
def digitChar (d : Nat) : Char := Char.ofNat (48 + d)

/-- Fuel-driven decimal digit list of `n`, most significant digit first.
The fuel is only there to make the recursion structural; `decAux (n+1) n`
always has enough fuel. -/
def decAux : Nat → Nat → List Char
  | 0, _ => []
  | f + 1, n => if n < 10 then [digitChar n] else decAux f (n / 10) ++ [digitChar (n % 10)]

/-- Decimal rendering of a natural number, as produced by Go's `%d` verb for
a nonnegative `int`. -/
def natToDec (n : Nat) : String := String.mk (decAux (n + 1) n)

/-- Value of a decimal digit string, used to invert `decAux`. -/
def decVal (l : List Char) : Nat := l.foldl (fun acc c => acc * 10 + (c.toNat - 48)) 0

theorem digitChar_toNat : ∀ d, d < 10 → (digitChar d).toNat = 48 + d := by decide

theorem decVal_append_digit (l : List Char) (c : Char) :
    decVal (l ++ [c]) = decVal l * 10 + (c.toNat - 48) := by
  simp [decVal, List.foldl_append]

theorem decVal_decAux : ∀ f n, n < f → decVal (decAux f n) = n := by
  intro f
  induction f with
  | zero => intro n hn; omega
  | succ f ih =>
    intro n hn
    by_cases h10 : n < 10
    · simp only [decAux, if_pos h10, decVal, List.foldl]
      have := digitChar_toNat n h10
      omega
    · have hdiv : n / 10 < f := by
        have h1 : n / 10 < n := Nat.div_lt_self (by omega) (by omega)
        omega
      simp only [decAux, if_neg h10]
      rw [decVal_append_digit, ih (n / 10) hdiv]
      have hmod : n % 10 < 10 := Nat.mod_lt _ (by omega)
      have := digitChar_toNat (n % 10) hmod
      have := Nat.div_add_mod n 10
      omega

theorem natToDec_injective : Function.Injective natToDec := by
  intro n m h
  have hd : decAux (n + 1) n = decAux (m + 1) m := congrArg String.data h
  have hn := decVal_decAux (n + 1) n (Nat.lt_succ_self n)
  have hm := decVal_decAux (m + 1) m (Nat.lt_succ_self m)
  rw [hd, hm] at hn
  omega

theorem decAux_ne_nil : ∀ f n, n < f → decAux f n ≠ [] := by
  intro f
  induction f with
  | zero => intro n hn; omega
  | succ f _ =>
    intro n _
    by_cases h10 : n < 10
    · simp [decAux, if_pos h10]
    · simp [decAux, if_neg h10]

theorem natToDec_ne_empty (n : Nat) : natToDec n ≠ "" := by
  intro h
  exact decAux_ne_nil (n + 1) n (Nat.lt_succ_self n) (congrArg String.data h)

/-! ## Generic string helpers used by the source -/

/-- Model of Go `strings.TrimSuffix(s, suf)`: drop `suf` from the end of `s`
when it is a suffix, otherwise return `s` unchanged. -/
def trimSuffix (s suf : List Char) : List Char :=
  if suf.isSuffixOf s then s.take (s.length - suf.length) else s

/-- Model of Go `strings.TrimSpace` (exact on ASCII whitespace). -/
def trimSpaceChars (l : List Char) : List Char :=
  ((l.dropWhile Char.isWhitespace).reverse.dropWhile Char.isWhitespace).reverse

/-! ## `slugify` (src/main.go lines 632-654)

```go
func slugify(text string, maxLen int) string {
    text = strings.ToLower(text)
    reg := regexp.MustCompile(`[^a-z0-9]+`)
    text = reg.ReplaceAllString(text, "-")
    text = strings.Trim(text, "-")
    if len(text) > maxLen {
        text = text[:maxLen]
        lastHyphen := strings.LastIndex(text, "-")
        if lastHyphen > 0 {
            text = text[:lastHyphen]
        }
    }
    return text
}
```
-/

/-- Is `c` in the character class `[a-z0-9]` of the source's regex? -/
def isAlnumLower (c : Char) : Bool :=
  ('a' ≤ c && c ≤ 'z') || ('0' ≤ c && c ≤ '9')

/-- Model of `regexp.MustCompile("[^a-z0-9]+").ReplaceAllString(text, "-")`:
each maximal run of characters outside `[a-z0-9]` becomes a single `'-'`.
The flag `inRun` records whether the previous character belonged to such a
run (so the run's single `'-'` has already been emitted). -/
def squashRuns (inRun : Bool) : List Char → List Char
  | [] => []
  | c :: cs =>
    if isAlnumLower c then c :: squashRuns false cs
    else if inRun then squashRuns true cs
    else '-' :: squashRuns true cs

/-- Model of `strings.Trim(text, "-")`. -/
def trimHyphens (l : List Char) : List Char :=
  ((l.dropWhile (fun c => c = '-')).reverse.dropWhile (fun c => c = '-')).reverse

/-- Model of `strings.LastIndex(text, "-")`: index of the last `'-'`,
`-1` when there is none. -/
def lastIndexHyphen (l : List Char) : Int :=
  match l.reverse.findIdx? (fun c => c = '-') with
  | none => -1
  | some j => ((l.length - 1 - j : Nat) : Int)

/-- The base (pre-truncation) slug of `text`: lower-case, squash the
non-alphanumeric runs, trim hyphens. -/
def slugBase (text : String) : List Char :=
  trimHyphens (squashRuns false (text.data.map Char.toLower))

/-- The `slugify` function of the source (lines 632-654).  `maxLen` is the
`maxLen` parameter (always the nonnegative `-max-slug` flag value, so a
`Nat`).  The source's reassignments of `text` appear here as `slugBase`
(the first three statements) followed by the truncation branch
(`if len(text) > maxLen`, i.e. `maxLen < length`). -/
def slugify (text : String) (maxLen : Nat) : String :=
  if maxLen < (slugBase text).length then
    let t := (slugBase text).take maxLen
    if 0 < lastIndexHyphen t then String.mk (t.take (lastIndexHyphen t).toNat)
    else String.mk t
  else String.mk (slugBase text)

/-! ## `generateKey`

The source contains two distinct copies.

Lines 659-689 (the copy the specification describes, called `generateKey`
here):

```go
func generateKey(filePath, basePath, text string, maxSlug int, keyCounter map[string]int) string {
    relPath, err := filepath.Rel(basePath, filePath)
    if err != nil {
        relPath = filePath
    }
    relPath = strings.TrimSuffix(relPath, ".vue")
    relPath = strings.ToLower(relPath)
    relPath = strings.ReplaceAll(relPath, string(filepath.Separator), ".")
    slug := slugify(text, maxSlug)
    key := relPath + "." + slug
    keyCounter[key]++
    count := keyCounter[key]
    if count > 1 {
        key = fmt.Sprintf("%s-%d", key, count)
    }
    return key
}
```

`rel b p` models `filepath.Rel(b, p)`: `some r` for a successful call
returning `r`, `none` for an error. -/

/-- Path stem of the lines-659-689 `generateKey`: relative path preferred
(raw path on `filepath.Rel` error), `.vue` suffix stripped, lower-cased,
separators replaced by dots. -/
def pathStem (rel : String → String → Option String) (filePath basePath : String) : String :=
  let relPath := match rel basePath filePath with
    | some r => r
    | none => filePath
  let relPath := trimSuffix relPath.data ".vue".data
  let relPath := relPath.map Char.toLower
  let relPath := relPath.map (fun c => if c = '/' then '.' else c)
  String.mk relPath

/-- One call of the key generator, as a record: the arguments of one
`generateKey` invocation apart from the shared counter. -/
structure KeyCall where
  filePath : String
  basePath : String
  text : String
  maxSlug : Nat
deriving DecidableEq

/-- The candidate key (`key` before collision handling) of a call:
`pathStem + "." + slug`. -/
def candidateKey (rel : String → String → Option String) (q : KeyCall) : String :=
  pathStem rel q.filePath q.basePath ++ "." ++ slugify q.text q.maxSlug

/-- The lines-659-689 `generateKey`.  The mutable `keyCounter` map becomes an
explicit in/out value: the result is the returned key together with the
updated counter. -/
def generateKey (rel : String → String → Option String) (filePath basePath text : String)
    (maxSlug : Nat) (keyCounter : String → Nat) : String × (String → Nat) :=
  let key := candidateKey rel ⟨filePath, basePath, text, maxSlug⟩
  let count := keyCounter key + 1
  (if 1 < count then key ++ "-" ++ natToDec count else key,
   fun k => if k = key then count else keyCounter k)

/-- The lines-73-94 copy of `generateKey`:

```go
func generateKey(path string, basepath string, text string, maxslug int, keycounter map[string]int) string {
    relpath, err := filepath.Rel(basepath, path)
    if err != nil {
        relpath = path
    }
    relpath = strings.TrimSpace(path)          // line 79: overwrites the Rel result
    relpath = strings.TrimSuffix(relpath, ".vue")
    relpath = strings.ToLower(relpath)
    relpath = strings.ReplaceAll(relpath, string(filepath.Separator), ".")
    slug.MaxLength = maxslug
    sluged := slug.Make(text)
    key := fmt.Sprintf("%s.%s", relpath, sluged)
    keycounter[key]++
    if keycounter[key] > 1 {
        key = fmt.Sprintf("%s-%d", key, keycounter[key])
    }
    return key
}
```

Line 79 overwrites `relpath` with `strings.TrimSpace(path)`, so the
computed relative path is dead.  The binding `_relFromRel` reproduces that
dead computation.  `slugMake n t` models the third-party
`slug.MaxLength = n; slug.Make(t)`. -/
def generateKeyLine73 (rel : String → String → Option String)
    (slugMake : Nat → String → String) (path basepath text : String)
    (maxslug : Nat) (keycounter : String → Nat) : String × (String → Nat) :=
  let _relFromRel := match rel basepath path with
    | some r => r
    | none => path
  let relpath := trimSpaceChars path.data
  let relpath := trimSuffix relpath ".vue".data
  let relpath := relpath.map Char.toLower
  let relpath := relpath.map (fun c => if c = '/' then '.' else c)
  let sluged := slugMake maxslug text
  let key := String.mk relpath ++ "." ++ sluged
  let count := keycounter key + 1
  (if 1 < count then key ++ "-" ++ natToDec count else key,
   fun k => if k = key then count else keycounter k)

/-- A run of the key generator: successive `generateKey` calls sharing one
counter, returning the keys in call order. -/
def runGenerateKeys (rel : String → String → Option String) :
    List KeyCall → (String → Nat) → List String
  | [], _ => []
  | q :: rest, ctr =>
    let r := generateKey rel q.filePath q.basePath q.text q.maxSlug ctr
    r.1 :: runGenerateKeys rel rest r.2

/-- The fresh (empty-map) counter a run starts from. -/
def zeroCtr : String → Nat := fun _ => 0

/-! ## The rewriter: `replaceInFile` (src/main.go lines 96-106 / 693-703)

```go
func replaceInFile(content []byte, matches []Match) []byte {
    for _, m := range matches {
        replacement := []byte(fmt.Sprintf("{{ $t('%s') }}", m.Key))
        newContent := make([]byte, 0, len(content)-int(m.EndByte-m.StartByte)+len(replacement))
        newContent = append(newContent, content[:m.StartByte]...)
        newContent = append(newContent, replacement...)
        newContent = append(newContent, content[m.EndByte:]...)
        content = newContent
    }
    return content
}
```
-/

/-- The `Match` struct of the source (lines 29-36 / 601-608).  `Line` is a Go
`int`, the byte offsets are Go `uint`s modelled as `Nat`. -/
structure Match where
  Line : Int
  File : String
  Text : String
  StartByte : Nat
  EndByte : Nat
  Key : String
deriving DecidableEq

/-- The apostrophe character, written by code point to keep string literals
plain. -/
def apos : Char := Char.ofNat 39

/-- The replacement text `fmt.Sprintf("{\x7b $t('%s') }\x7d", m.Key)` built
for a match: the literal `\x7b\x7b $t('` + key + `') \x7d\x7d`. -/
def formatReplacement (key : String) : List Char :=
  "\x7b\x7b $t(".data ++ apos :: key.data ++ apos :: ") \x7d\x7d".data

/-- One iteration of the `replaceInFile` loop:
`content[:m.StartByte] + replacement + content[m.EndByte:]`. -/
def replaceOne (content : List Char) (m : Match) : List Char :=
  content.take m.StartByte ++ formatReplacement m.Key ++ content.drop m.EndByte

/-- The full `replaceInFile` loop: fold `replaceOne` over the matches in
list order, threading the shrinking/growing buffer. -/
def replaceInFile (content : List Char) : List Match → List Char
  | [] => content
  | m :: rest => replaceInFile (replaceOne content m) rest

/-- The rewrite algorithm exactly as the specification words it: a fold of
`content[0:startOffset] + "\x7b\x7b $t('" + key + "') \x7d\x7d" + content[endOffset:]`
over the spans. -/
def rewriteSpec (content : List Char) (spans : List Match) : List Char :=
  spans.foldl (fun buf m => buf.take m.StartByte ++ formatReplacement m.Key ++ buf.drop m.EndByte)
    content

/-- Bounds-checked variant of `replaceInFile`: `none` as soon as one slice
bound of the loop body (`content[:m.StartByte]` or `content[m.EndByte:]`)
exceeds the current buffer — exactly the two slice expressions whose bounds
Go checks at run time (out of bounds panics). -/
def replaceInFileChecked (content : List Char) : List Match → Option (List Char)
  | [] => some content
  | m :: rest =>
    if m.StartByte ≤ content.length ∧ m.EndByte ≤ content.length then
      replaceInFileChecked (replaceOne content m) rest
    else none

/-- Matches pairwise disjoint and sorted by `StartByte` in descending order:
every later (lower-offset) match ends at or before the start of every
earlier one.  Given `StartByte ≤ EndByte`, this is exactly
"non-overlapping and sorted descending by start offset". -/
def descDisjoint : List Match → Bool
  | [] => true
  | m :: rest => rest.all (fun n => n.EndByte ≤ m.StartByte) && descDisjoint rest

/-- Precondition of the rewriter on a buffer of length `len`: each span is
well-formed (`StartByte ≤ EndByte ≤ len`) and the list is `descDisjoint`. -/
def spansWF (len : Nat) (ms : List Match) : Bool :=
  ms.all (fun m => decide (m.StartByte ≤ m.EndByte) && decide (m.EndByte ≤ len)) && descDisjoint ms

/-- Total length of replacement text inserted by the matches of `ms` lying
entirely below original offset `i` (those with `EndByte ≤ i`). -/
def addedBelow (ms : List Match) (i : Nat) : Nat :=
  match ms with
  | [] => 0
  | m :: rest => (if m.EndByte ≤ i then (formatReplacement m.Key).length else 0) + addedBelow rest i

/-- Total length of original text removed by the matches of `ms` lying
entirely below original offset `i`. -/
def removedBelow (ms : List Match) (i : Nat) : Nat :=
  match ms with
  | [] => 0
  | m :: rest => (if m.EndByte ≤ i then m.EndByte - m.StartByte else 0) + removedBelow rest i

/-! ## The catalog merger: `writeLocaleFile` (src/main.go lines 108-148 / 706-748)

```go
func writeLocaleFile(path string, translations map[string]string) error {
    existing := make(map[string]string)
    data, err := os.ReadFile(path)
    if err == nil {
        if err := json.Unmarshal(data, &existing); err != nil {
            return fmt.Errorf("failed to parse existing locale file: %w", err)
        }
    }
    for key, value := range translations {
        if _, exists := existing[key]; !exists {
            existing[key] = value
        }
    }
    keys := make([]string, 0, len(existing))
    for k := range existing {
        keys = append(keys, k)
    }
    sort.Strings(keys)
    ordered := make(map[string]string)
    for _, k := range keys {
        ordered[k] = existing[k]
    }
    output, err := json.MarshalIndent(ordered, "", "  ")
    ...
    os.WriteFile(path, output, 0644)
}
```
-/

/-- First-match lookup in an association list: the read `existing[key]` of a
Go `map[string]string` modelled as an entry list (entry lists built by the
functions below have pairwise distinct keys, so "first" is "the" match). -/
def lookupKey (k : String) : List (String × String) → Option String
  | [] => none
  | (k', v) :: rest => if k' = k then some v else lookupKey k rest

/-- The body of the merge loop: `if _, exists := existing[key]; !exists { existing[key] = value }`. -/
def insertIfAbsent (cat : List (String × String)) (k v : String) : List (String × String) :=
  match lookupKey k cat with
  | some _ => cat
  | none => cat ++ [(k, v)]

/-- The merge loop of `writeLocaleFile`: insert each new `(key, value)` into
the existing catalog only when the key is absent.  Go iterates the
`translations` map in unspecified order; the list order stands in for one
such order, and the theorems proved about the result are insensitive to it. -/
def mergeTranslations (existing news : List (String × String)) : List (String × String) :=
  news.foldl (fun acc kv => insertIfAbsent acc kv.1 kv.2) existing

/-- Ordering entries by key.  Go's `sort.Strings` and `encoding/json` both
order keys by byte-wise lexicographic comparison, which on UTF-8 encodings
coincides with the code-point lexicographic order of Lean's `String ≤`. -/
def keyLE (a b : String × String) : Prop := a.1 ≤ b.1

instance : DecidableRel keyLE := fun a b => inferInstanceAs (Decidable (a.1 ≤ b.1))

instance : IsTotal (String × String) keyLE := ⟨fun a b => le_total a.1 b.1⟩

instance : IsTrans (String × String) keyLE := ⟨fun _ _ _ h h' => le_trans h h'⟩

/-- Lowercase hexadecimal digit, as used by Go's JSON `\u00XX` escapes. -/
def hexDigit (d : Nat) : Char := Char.ofNat (if d < 10 then 48 + d else 87 + d)

/-- Model of the Go `encoding/json` string escaper (default HTML-escaping
encoder) for one character: `"` and `\` get a backslash; newline, carriage
return and tab get their short forms; other control characters and the
HTML-sensitive `<`, `>`, `&` become `\u00XX`; U+2028/U+2029 become
`\u202X`; everything else is copied. -/
def jsonEscapeChar (c : Char) : List Char :=
  if c = '"' ∨ c = '\\' then ['\\', c]
  else if c = '\n' then ['\\', 'n']
  else if c = '\r' then ['\\', 'r']
  else if c = '\t' then ['\\', 't']
  else if c.toNat < 32 ∨ c = '<' ∨ c = '>' ∨ c = '&' then
    ['\\', 'u', '0', '0', hexDigit (c.toNat / 16), hexDigit (c.toNat % 16)]
  else if c.toNat = 8232 ∨ c.toNat = 8233 then
    ['\\', 'u', '2', '0', '2', hexDigit (c.toNat % 16)]
  else [c]

/-- A JSON string literal for `s`, in Go `encoding/json` style. -/
def jsonQuote (s : String) : String :=
  String.mk ('"' :: (s.data.map jsonEscapeChar).flatten ++ ['"'])

/-- Model of `json.MarshalIndent(m, "", "  ")` applied to a `map[string]string`
whose entries are `entries` **already in serialization order**: a 2-space
indented JSON object, one `"key": "value"` member per line. -/
def renderLocaleJson (entries : List (String × String)) : String :=
  match entries with
  | [] => "\x7b\x7d"
  | _ =>
    "\x7b\n" ++
      String.intercalate ",\n"
        (entries.map (fun kv => "  " ++ jsonQuote kv.1 ++ ": " ++ jsonQuote kv.2)) ++
    "\n\x7d"

/-- Serialization of a catalog: `encoding/json` marshals a map's members in
ascending key order (the source additionally pre-sorts the keys and rebuilds
an `ordered` map, which for a Go map is a no-op — the encoder's own sort is
what fixes the order). -/
def marshalLocale (cat : List (String × String)) : String :=
  renderLocaleJson (List.insertionSort keyLE cat)

/-- Abstraction of the bytes stored in the catalog file: either content that
`json.Unmarshal` parses into a `map[string]string` (`valid cat`), or content
on which it fails (`invalid`). -/
inductive FileData where
  | valid (cat : List (String × String))
  | invalid
deriving DecidableEq

/-- Model of `json.Unmarshal(data, &existing)`. -/
def unmarshalCatalog : FileData → Option (List (String × String))
  | .valid cat => some cat
  | .invalid => none

/-- State of the catalog file as seen by `os.ReadFile`: present and readable,
absent (`err` satisfying `os.IsNotExist`), or present but unreadable (any
other read error, e.g. a permission failure). -/
inductive Disk where
  | file (data : FileData)
  | absent
  | unreadable (data : FileData)
deriving DecidableEq

/-- What `os.ReadFile` hands back in each disk state, collapsed to what the
source inspects: the parsed data on success (`some`), or an error (`none`) —
the source only tests `err == nil` and never distinguishes error kinds. -/
def readCatalog : Disk → Option FileData
  | .file d => some d
  | .absent => none
  | .unreadable _ => none

/-- The `writeLocaleFile` function.  `Except.ok out` models a successful run
whose final `os.WriteFile` writes the bytes `out`; `Except.error e` models a
return before the final write (so the on-disk file is untouched).  The
`os.WriteFile` I/O failure itself is outside the model (the source only
wraps and returns it, after the content is already determined). -/
def writeLocaleFile (disk : Disk) (translations : List (String × String)) : Except String String :=
  match readCatalog disk with
  | some d =>
    match unmarshalCatalog d with
    | none => .error "failed to parse existing locale file"
    | some existing => .ok (marshalLocale (mergeTranslations existing translations))
  | none => .ok (marshalLocale (mergeTranslations [] translations))

/-! ## Lemmas about the rewriter -/

theorem spansWF_iff {len : Nat} {ms : List Match} :
    spansWF len ms = true ↔
      (∀ m ∈ ms, m.StartByte ≤ m.EndByte ∧ m.EndByte ≤ len) ∧ descDisjoint ms = true := by
  simp [spansWF, List.all_eq_true, Bool.and_eq_true, decide_eq_true_eq]

theorem descDisjoint_cons {m : Match} {rest : List Match} :
    descDisjoint (m :: rest) = true ↔
      (∀ n ∈ rest, n.EndByte ≤ m.StartByte) ∧ descDisjoint rest = true := by
  simp [descDisjoint, List.all_eq_true, Bool.and_eq_true, decide_eq_true_eq]

theorem replaceInFile_eq_rewriteSpec : ∀ (ms : List Match) (content : List Char),
    replaceInFile content ms = rewriteSpec content ms := by
  intro ms
  induction ms with
  | nil => intro content; rfl
  | cons m rest ih =>
    intro content
    simpa [replaceInFile, rewriteSpec, List.foldl, replaceOne] using ih (replaceOne content m)

theorem length_replaceOne (content : List Char) (m : Match)
    (hse : m.StartByte ≤ m.EndByte) (hlen : m.EndByte ≤ content.length) :
    (replaceOne content m).length =
      m.StartByte + (formatReplacement m.Key).length + (content.length - m.EndByte) := by
  simp only [replaceOne, List.length_append, List.length_take, List.length_drop]
  omega

theorem removedBelow_le_of_bound : ∀ (ms : List Match) (k i : Nat),
    (∀ n ∈ ms, n.StartByte ≤ n.EndByte ∧ n.EndByte ≤ k) → descDisjoint ms = true →
    removedBelow ms i ≤ k := by
  intro ms
  induction ms with
  | nil => intro k i _ _; simp [removedBelow]
  | cons m rest ih =>
    intro k i hb hd
    obtain ⟨hrest, hd'⟩ := descDisjoint_cons.mp hd
    have hm := hb m (List.mem_cons_self m rest)
    have htail : removedBelow rest i ≤ m.StartByte :=
      ih m.StartByte i
        (fun n hn => ⟨(hb n (List.mem_cons_of_mem m hn)).1, hrest n hn⟩) hd'
    simp only [removedBelow]
    split <;> omega

theorem addedBelow_congr : ∀ (ms : List Match) (i j : Nat),
    (∀ n ∈ ms, n.EndByte ≤ i ∧ n.EndByte ≤ j) → addedBelow ms i = addedBelow ms j := by
  intro ms
  induction ms with
  | nil => intro i j _; rfl
  | cons m rest ih =>
    intro i j h
    have hm := h m (List.mem_cons_self m rest)
    simp only [addedBelow, if_pos hm.1, if_pos hm.2,
      ih i j (fun n hn => h n (List.mem_cons_of_mem m hn))]

theorem removedBelow_congr : ∀ (ms : List Match) (i j : Nat),
    (∀ n ∈ ms, n.EndByte ≤ i ∧ n.EndByte ≤ j) → removedBelow ms i = removedBelow ms j := by
  intro ms
  induction ms with
  | nil => intro i j _; rfl
  | cons m rest ih =>
    intro i j h
    have hm := h m (List.mem_cons_self m rest)
    simp only [removedBelow, if_pos hm.1, if_pos hm.2,
      ih i j (fun n hn => h n (List.mem_cons_of_mem m hn))]

theorem replaceInFile_getElem_aux : ∀ (ms : List Match) (content : List Char),
    (∀ m ∈ ms, m.StartByte ≤ m.EndByte ∧ m.EndByte ≤ content.length) →
    descDisjoint ms = true →
    ∀ i, i < content.length → (∀ m ∈ ms, i < m.StartByte ∨ m.EndByte ≤ i) →
      (replaceInFile content ms)[i + addedBelow ms i - removedBelow ms i]? = content[i]? := by
  intro ms
  induction ms with
  | nil =>
    intro content _ _ i _ _
    simp [replaceInFile, addedBelow, removedBelow]
  | cons m rest ih =>
    intro content hb hd i hi hout
    obtain ⟨hrest_le, hd'⟩ := descDisjoint_cons.mp hd
    obtain ⟨hse, helen⟩ := hb m (List.mem_cons_self m rest)
    have hbrest : ∀ n ∈ rest, n.StartByte ≤ n.EndByte ∧ n.EndByte ≤ m.StartByte :=
      fun n hn => ⟨(hb n (List.mem_cons_of_mem m hn)).1, hrest_le n hn⟩
    have hlenB : (replaceOne content m).length =
        m.StartByte + (formatReplacement m.Key).length + (content.length - m.EndByte) :=
      length_replaceOne content m hse helen
    have hbrest' : ∀ n ∈ rest, n.StartByte ≤ n.EndByte ∧ n.EndByte ≤ (replaceOne content m).length :=
      fun n hn => ⟨(hbrest n hn).1, by have := (hbrest n hn).2; omega⟩
    have hstep : replaceInFile content (m :: rest) = replaceInFile (replaceOne content m) rest := rfl
    rcases hout m (List.mem_cons_self m rest) with hlt | hge
    · -- the preserved byte lies before the replaced span
      have hne : ¬ m.EndByte ≤ i := by omega
      have hadd : addedBelow (m :: rest) i = addedBelow rest i := by
        simp [addedBelow, if_neg hne]
      have hrem : removedBelow (m :: rest) i = removedBelow rest i := by
        simp [removedBelow, if_neg hne]
      have hiB : i < (replaceOne content m).length := by omega
      have houtrest : ∀ n ∈ rest, i < n.StartByte ∨ n.EndByte ≤ i :=
        fun n hn => hout n (List.mem_cons_of_mem m hn)
      have hgoal := ih (replaceOne content m) hbrest' hd' i hiB houtrest
      rw [hstep, hadd, hrem, hgoal]
      -- (replaceOne content m)[i]? = content[i]? for i < StartByte
      have htk2 : i < (content.take m.StartByte ++ formatReplacement m.Key).length := by
        simp [List.length_append, List.length_take]; omega
      have htk : i < (content.take m.StartByte).length := by
        simp [List.length_take]; omega
      rw [replaceOne, List.getElem?_append_left htk2, List.getElem?_append_left htk,
        List.getElem?_take_of_lt hlt]
    · -- the preserved byte lies after the replaced span
      set L := (formatReplacement m.Key).length with hL
      set j := m.StartByte + L + (i - m.EndByte) with hj
      have hjB : j < (replaceOne content m).length := by omega
      have houtrest : ∀ n ∈ rest, j < n.StartByte ∨ n.EndByte ≤ j :=
        fun n hn => Or.inr (by have := hrest_le n hn; omega)
      have hcongr_pre : ∀ n ∈ rest, n.EndByte ≤ i ∧ n.EndByte ≤ j :=
        fun n hn => ⟨by have := hrest_le n hn; omega, by have := hrest_le n hn; omega⟩
      have hremle : removedBelow rest j ≤ m.StartByte :=
        removedBelow_le_of_bound rest m.StartByte j hbrest hd'
      have hremle' : removedBelow rest i ≤ m.StartByte :=
        removedBelow_le_of_bound rest m.StartByte i hbrest hd'
      have hadd : addedBelow (m :: rest) i = L + addedBelow rest j := by
        simp [addedBelow, if_pos hge, addedBelow_congr rest i j hcongr_pre]
      have hrem : removedBelow (m :: rest) i = (m.EndByte - m.StartByte) + removedBelow rest j := by
        simp [removedBelow, if_pos hge, removedBelow_congr rest i j hcongr_pre]
      have hidx : i + addedBelow (m :: rest) i - removedBelow (m :: rest) i =
          j + addedBelow rest j - removedBelow rest j := by
        rw [hadd, hrem]; omega
      have hgoal := ih (replaceOne content m) hbrest' hd' j hjB houtrest
      rw [hstep, hidx, hgoal]
      -- (replaceOne content m)[j]? = content[i]? for EndByte ≤ i
      have hlen_ab : (content.take m.StartByte ++ formatReplacement m.Key).length =
          m.StartByte + L := by
        simp [List.length_append, List.length_take]; omega
      have htk : (content.take m.StartByte ++ formatReplacement m.Key).length ≤ j := by
        rw [hlen_ab]; omega
      rw [replaceOne, List.getElem?_append_right htk, hlen_ab, List.getElem?_drop]
      congr 1
      omega

theorem replaceInFileChecked_aux : ∀ (ms : List Match) (content : List Char),
    (∀ m ∈ ms, m.StartByte ≤ m.EndByte ∧ m.EndByte ≤ content.length) →
    descDisjoint ms = true →
    replaceInFileChecked content ms = some (replaceInFile content ms) := by
  intro ms
  induction ms with
  | nil => intro content _ _; rfl
  | cons m rest ih =>
    intro content hb hd
    obtain ⟨hrest_le, hd'⟩ := descDisjoint_cons.mp hd
    obtain ⟨hse, helen⟩ := hb m (List.mem_cons_self m rest)
    have hguard : m.StartByte ≤ content.length ∧ m.EndByte ≤ content.length := ⟨by omega, helen⟩
    have hlenB : (replaceOne content m).length =
        m.StartByte + (formatReplacement m.Key).length + (content.length - m.EndByte) :=
      length_replaceOne content m hse helen
    have hbrest' : ∀ n ∈ rest, n.StartByte ≤ n.EndByte ∧ n.EndByte ≤ (replaceOne content m).length :=
      fun n hn => ⟨(hb n (List.mem_cons_of_mem m hn)).1, by have := hrest_le n hn; omega⟩
    simp only [replaceInFileChecked, if_pos hguard]
    exact ih (replaceOne content m) hbrest' hd'

/-! ## Lemmas about the key-generator run -/

/-- The final key produced from candidate `c` when the post-increment counter
value is `n`. -/
def finalKey (c : String) (n : Nat) : String :=
  if 1 < n then c ++ "-" ++ natToDec n else c

/-- The counter after `keyCounter[c]++`. -/
def bumpCtr (ctr : String → Nat) (c : String) : String → Nat :=
  fun k => if k = c then ctr c + 1 else ctr k

theorem generateKey_eq (rel : String → String → Option String) (q : KeyCall) (ctr : String → Nat) :
    generateKey rel q.filePath q.basePath q.text q.maxSlug ctr =
      (finalKey (candidateKey rel q) (ctr (candidateKey rel q) + 1),
       bumpCtr ctr (candidateKey rel q)) := rfl

/-- Number of calls in `qs` whose candidate key is `c`. -/
def candCount (rel : String → String → Option String) (c : String) (qs : List KeyCall) : Nat :=
  qs.countP (fun q => decide (candidateKey rel q = c))

theorem runGenerateKeys_getElem? (rel : String → String → Option String) :
    ∀ (qs : List KeyCall) (ctr : String → Nat) (i : Nat) (q : KeyCall),
    qs[i]? = some q →
    (runGenerateKeys rel qs ctr)[i]? =
      some (finalKey (candidateKey rel q)
        (ctr (candidateKey rel q) + candCount rel (candidateKey rel q) (qs.take (i + 1)))) := by
  intro qs
  induction qs with
  | nil => intro ctr i q hq; simp at hq
  | cons q0 rest ih =>
    intro ctr i q hq
    cases i with
    | zero =>
      have hq0 : q0 = q := by simpa using hq
      subst hq0
      simp [runGenerateKeys, generateKey_eq, candCount, List.countP_cons]
    | succ i =>
      have hq' : rest[i]? = some q := by simpa using hq
      have hstep : (runGenerateKeys rel (q0 :: rest) ctr)[i + 1]? =
          (runGenerateKeys rel rest (bumpCtr ctr (candidateKey rel q0)))[i]? := by
        simp [runGenerateKeys, generateKey_eq]
      rw [hstep, ih (bumpCtr ctr (candidateKey rel q0)) i q hq']
      have htake : (q0 :: rest).take (i + 1 + 1) = q0 :: rest.take (i + 1) := rfl
      rw [htake]
      congr 2
      simp only [candCount, List.countP_cons, bumpCtr]
      by_cases hcc : candidateKey rel q = candidateKey rel q0
      · simp [hcc]; omega
      · have : ¬ (candidateKey rel q0 = candidateKey rel q) := fun h => hcc h.symm
        simp [hcc, this]

theorem countP_take_le {α : Type} (p : α → Bool) (l : List α) (k : Nat) :
    (l.take k).countP p ≤ l.countP p := by
  conv_rhs => rw [← List.take_append_drop k l]
  rw [List.countP_append]
  omega

theorem candCount_take_mono (rel : String → String → Option String) (c : String)
    (qs : List KeyCall) {a b : Nat} (hab : a ≤ b) :
    candCount rel c (qs.take a) ≤ candCount rel c (qs.take b) := by
  have h : (qs.take b).take a = qs.take a := by
    rw [List.take_take, Nat.min_eq_left hab]
  calc candCount rel c (qs.take a) = candCount rel c ((qs.take b).take a) := by rw [h]
    _ ≤ candCount rel c (qs.take b) := countP_take_le _ _ _

theorem candCount_take_succ (rel : String → String → Option String)
    (qs : List KeyCall) (i : Nat) (q : KeyCall) (hq : qs[i]? = some q) :
    candCount rel (candidateKey rel q) (qs.take (i + 1)) =
      candCount rel (candidateKey rel q) (qs.take i) + 1 := by
  have h : qs.take (i + 1) = qs.take i ++ [q] := by
    rw [List.take_succ, hq]; rfl
  rw [h]
  simp [candCount, List.countP_append]

theorem finalKey_ne (c : String) (n m : Nat) (h1 : 1 ≤ n) (h2 : n < m) :
    finalKey c n ≠ finalKey c m := by
  have hm : 1 < m := by omega
  by_cases hn : 1 < n
  · simp only [finalKey, if_pos hn, if_pos hm]
    intro h
    have hdata := congrArg String.data h
    simp only [String.data_append] at hdata
    have hdec : (natToDec n).data = (natToDec m).data := List.append_cancel_left hdata
    have : natToDec n = natToDec m := congrArg String.mk hdec
    have := natToDec_injective this
    omega
  · have hn1 : n = 1 := by omega
    subst hn1
    simp only [finalKey, if_neg hn, if_pos hm]
    intro h
    have hlen := congrArg String.length h
    rw [String.length_append, String.length_append] at hlen
    have : (String.length "-") = 1 := rfl
    omega

/-! ## Lemmas about the catalog merge -/

theorem lookupKey_append (k : String) : ∀ (l₁ l₂ : List (String × String)),
    lookupKey k (l₁ ++ l₂) = (lookupKey k l₁).orElse (fun _ => lookupKey k l₂) := by
  intro l₁
  induction l₁ with
  | nil => intro l₂; simp [lookupKey, Option.orElse]
  | cons kv rest ih =>
    intro l₂
    by_cases h : kv.1 = k
    · simp [lookupKey, if_pos h, Option.orElse]
    · simp [lookupKey, if_neg h, ih]

theorem lookupKey_mergeTranslations :
    ∀ (news existing : List (String × String)) (k : String),
    lookupKey k (mergeTranslations existing news) =
      (lookupKey k existing).orElse (fun _ => lookupKey k news) := by
  intro news
  induction news with
  | nil =>
    intro existing k
    simp only [mergeTranslations, List.foldl_nil, lookupKey]
    cases lookupKey k existing <;> rfl
  | cons kv tr ih =>
    intro existing k
    have hstep : mergeTranslations existing (kv :: tr) =
        mergeTranslations (insertIfAbsent existing kv.1 kv.2) tr := rfl
    rw [hstep, ih]
    unfold insertIfAbsent
    cases hk0 : lookupKey kv.1 existing with
    | some w =>
      by_cases hkk : kv.1 = k
      · subst hkk
        rw [hk0]
        simp [lookupKey, Option.orElse]
      · cases hke : lookupKey k existing <;> simp [lookupKey, if_neg hkk, Option.orElse, hke]
    | none =>
      rw [lookupKey_append]
      by_cases hkk : kv.1 = k
      · subst hkk
        rw [hk0]
        simp [lookupKey, Option.orElse]
      · cases hke : lookupKey k existing <;>
          simp [lookupKey, if_neg hkk, Option.orElse, hke]

theorem lookupKey_eq_none_iff (k : String) : ∀ (l : List (String × String)),
    lookupKey k l = none ↔ k ∉ l.map Prod.fst := by
  intro l
  induction l with
  | nil => simp [lookupKey]
  | cons kv rest ih =>
    simp only [lookupKey, List.map_cons, List.mem_cons]
    by_cases h : kv.1 = k
    · simp [if_pos h, h]
    · simp only [if_neg h, ih]
      constructor
      · intro hk hor
        exact hor.elim (fun he => h he.symm) hk
      · intro hk hm
        exact hk (Or.inr hm)

theorem lookupKey_append_singleton_eq_none (k k' v : String) (l : List (String × String)) :
    lookupKey k (l ++ [(k', v)]) = none ↔ lookupKey k l = none ∧ k ≠ k' := by
  rw [lookupKey_append]
  cases hqe : lookupKey k l with
  | some w => simp [Option.orElse]
  | none =>
    by_cases hqk : k' = k
    · subst hqk
      simp [Option.orElse, lookupKey]
    · simp only [Option.orElse, lookupKey, if_neg hqk, ne_eq, true_and]
      constructor
      · intro _ hh
        exact hqk hh.symm
      · intro _
        trivial

theorem mem_mergeTranslations_of_mem :
    ∀ (news existing : List (String × String)) (p : String × String),
    p ∈ existing → p ∈ mergeTranslations existing news := by
  intro news
  induction news with
  | nil => intro existing p hp; exact hp
  | cons kv tr ih =>
    intro existing p hp
    have hstep : mergeTranslations existing (kv :: tr) =
        mergeTranslations (insertIfAbsent existing kv.1 kv.2) tr := rfl
    rw [hstep]
    apply ih
    unfold insertIfAbsent
    cases lookupKey kv.1 existing with
    | some w => exact hp
    | none => exact List.mem_append_left _ hp

theorem mem_mergeTranslations_iff :
    ∀ (news existing : List (String × String)), (news.map Prod.fst).Nodup →
    ∀ (p : String × String),
    p ∈ mergeTranslations existing news ↔
      p ∈ existing ∨ (p ∈ news ∧ lookupKey p.1 existing = none) := by
  intro news
  induction news with
  | nil => intro existing _ p; simp [mergeTranslations]
  | cons kv tr ih =>
    intro existing hnd p
    have hnd' : (tr.map Prod.fst).Nodup := (List.nodup_cons.mp hnd).2
    have hk0tr : kv.1 ∉ tr.map Prod.fst := (List.nodup_cons.mp hnd).1
    have hstep : mergeTranslations existing (kv :: tr) =
        mergeTranslations (insertIfAbsent existing kv.1 kv.2) tr := rfl
    rw [hstep, ih (insertIfAbsent existing kv.1 kv.2) hnd' p]
    unfold insertIfAbsent
    cases hk0 : lookupKey kv.1 existing with
    | some w =>
      constructor
      · rintro (hp | ⟨hptr, hnone⟩)
        · exact Or.inl hp
        · exact Or.inr ⟨List.mem_cons_of_mem kv hptr, hnone⟩
      · rintro (hp | ⟨hpmem, hnone⟩)
        · exact Or.inl hp
        · rcases List.mem_cons.mp hpmem with hpe | hptr
          · exfalso
            rw [hpe] at hnone
            rw [hk0] at hnone
            cases hnone
          · exact Or.inr ⟨hptr, hnone⟩
    | none =>
      have happ : ∀ q : String × String,
          lookupKey q.1 (existing ++ [(kv.1, kv.2)]) = none ↔
            lookupKey q.1 existing = none ∧ q.1 ≠ kv.1 :=
        fun q => lookupKey_append_singleton_eq_none q.1 kv.1 kv.2 existing
      constructor
      · rintro (hp | ⟨hptr, hnone⟩)
        · rcases List.mem_append.mp hp with hpe | hpkv
          · exact Or.inl hpe
          · have hpkv' : p = (kv.1, kv.2) := by simpa using hpkv
            subst hpkv'
            exact Or.inr ⟨List.mem_cons_self kv tr, hk0⟩
        · rw [happ p] at hnone
          exact Or.inr ⟨List.mem_cons_of_mem kv hptr, hnone.1⟩
      · rintro (hp | ⟨hpmem, hnone⟩)
        · exact Or.inl (List.mem_append_left _ hp)
        · rcases List.mem_cons.mp hpmem with hpe | hptr
          · refine Or.inl (List.mem_append_right _ ?_)
            simp [hpe]
          · refine Or.inr ⟨hptr, (happ p).mpr ⟨hnone, ?_⟩⟩
            intro hpk
            apply hk0tr
            rw [← hpk]
            exact List.mem_map_of_mem Prod.fst hptr

theorem nodup_keys_insertIfAbsent (cat : List (String × String)) (k v : String)
    (h : (cat.map Prod.fst).Nodup) :
    ((insertIfAbsent cat k v).map Prod.fst).Nodup := by
  unfold insertIfAbsent
  cases hk : lookupKey k cat with
  | some w => exact h
  | none =>
    rw [List.map_append]
    have hkn : k ∉ cat.map Prod.fst := (lookupKey_eq_none_iff k cat).mp hk
    simp only [List.map_cons, List.map_nil]
    rw [List.nodup_append]
    refine ⟨h, List.nodup_singleton k, ?_⟩
    intro a ha hak
    have hae : a = k := by simpa using hak
    exact hkn (hae ▸ ha)

theorem nodup_keys_mergeTranslations :
    ∀ (news existing : List (String × String)), (existing.map Prod.fst).Nodup →
    ((mergeTranslations existing news).map Prod.fst).Nodup := by
  intro news
  induction news with
  | nil => intro existing h; exact h
  | cons kv tr ih =>
    intro existing h
    exact ih (insertIfAbsent existing kv.1 kv.2) (nodup_keys_insertIfAbsent existing kv.1 kv.2 h)

/-! ## Lemmas about `slugify` -/

theorem squashRuns_chars : ∀ (l : List Char) (b : Bool),
    ∀ c ∈ squashRuns b l, isAlnumLower c = true ∨ c = '-' := by
  intro l
  induction l with
  | nil => intro b c hc; simp [squashRuns] at hc
  | cons x xs ih =>
    intro b c hc
    simp only [squashRuns] at hc
    by_cases hx : isAlnumLower x
    · rw [if_pos hx] at hc
      rcases List.mem_cons.mp hc with rfl | h
      · exact Or.inl hx
      · exact ih false c h
    · rw [if_neg hx] at hc
      by_cases hb : b = true
      · rw [if_pos hb] at hc
        exact ih true c hc
      · rw [if_neg hb] at hc
        rcases List.mem_cons.mp hc with rfl | h
        · exact Or.inr rfl
        · exact ih true c h

theorem mem_trimHyphens {c : Char} {l : List Char} (h : c ∈ trimHyphens l) : c ∈ l := by
  unfold trimHyphens at h
  rw [List.mem_reverse] at h
  have h2 : c ∈ (l.dropWhile (fun x => x = '-')).reverse :=
    (List.dropWhile_sublist _).subset h
  rw [List.mem_reverse] at h2
  exact (List.dropWhile_sublist _).subset h2

theorem slugify_take_slugBase (text : String) (maxLen : Nat) :
    (slugify text maxLen).length ≤ maxLen ∧
    ∃ k, (slugify text maxLen).data = (slugBase text).take k := by
  unfold slugify
  by_cases h1 : maxLen < (slugBase text).length
  · rw [if_pos h1]
    simp only
    by_cases h2 : 0 < lastIndexHyphen ((slugBase text).take maxLen)
    · rw [if_pos h2]
      constructor
      · show (((slugBase text).take maxLen).take _).length ≤ maxLen
        rw [List.length_take, List.length_take]
        omega
      · refine ⟨min (lastIndexHyphen ((slugBase text).take maxLen)).toNat maxLen, ?_⟩
        show ((slugBase text).take maxLen).take _ = _
        rw [List.take_take]
    · rw [if_neg h2]
      constructor
      · show ((slugBase text).take maxLen).length ≤ maxLen
        rw [List.length_take]
        omega
      · exact ⟨maxLen, rfl⟩
  · rw [if_neg h1]
    constructor
    · show (slugBase text).length ≤ maxLen
      omega
    · exact ⟨(slugBase text).length, (List.take_length (slugBase text)).symm⟩

/-! ## Concrete fixtures used in claim theorems and witnesses -/

/-- A `filepath.Rel` instantiation returning the target path unchanged.  It
agrees with Go's `filepath.Rel` at every point it is applied to below:
`filepath.Rel(".", "x.vue") = ("x.vue", nil)`. -/
def relId : String → String → Option String := fun _ p => some p

/-- A `filepath.Rel` instantiation agreeing with Go's
`filepath.Rel("/base", "/base/app.vue") = ("app.vue", nil)`. -/
def relBaseApp : String → String → Option String := fun b p =>
  if b = "/base" ∧ p = "/base/app.vue" then some "app.vue" else none

/-- Three key-generator calls of one run: same file, texts `"a"`, `"a"`,
`"a 2"`.  Their candidate keys are `x.a`, `x.a`, `x.a-2`. -/
def cexCalls : List KeyCall :=
  [⟨"x.vue", ".", "a", 30⟩, ⟨"x.vue", ".", "a", 30⟩, ⟨"x.vue", ".", "a 2", 30⟩]

/-- The single span of the specification's rewrite example: `"Hello"` at
byte offsets 3-8 of `"<p>Hello</p>"`, key `x.y`. -/
def mWitness : Match := ⟨1, "page.vue", "Hello", 3, 8, "x.y"⟩

/-- Two non-overlapping spans of `"abcdefgh"` in descending start order. -/
def msC10 : List Match := [⟨1, "f.vue", "fg", 5, 7, "x"⟩, ⟨1, "f.vue", "b", 1, 2, "y"⟩]

/-! ## Claim theorems -/

/-- C1, counterexample: the keys returned by successive `generateKey` calls
sharing one counter are **not** always pairwise distinct.  In the run
`cexCalls` (same file throughout, texts `"a"`, `"a"`, `"a 2"`), the second
call gets the suffixed key `x.a-2` while the third call's candidate key is
itself `x.a-2`, seen for the first time, so it gets the bare form: two equal
keys.  (The choice of `rel` is immaterial: all three calls share one
`(filePath, basePath)` pair, so any `filepath.Rel` behaviour yields the same
three candidate keys; `relId` agrees with Go's `filepath.Rel` on the pair
used.) -/
theorem generateKey_collision_cex :
    runGenerateKeys relId cexCalls zeroCtr = ["x.a", "x.a-2", "x.a-2"] ∧
    ¬ List.Pairwise (fun a b : String => a ≠ b) (runGenerateKeys relId cexCalls zeroCtr) := by
  constructor
  · decide
  · decide

/-- C1, amended: keys of one run are pairwise distinct **among calls that
share the same candidate key** (the n-th occurrence of a candidate gets a
distinct numeric suffix); across different candidate keys collisions are
possible, as the counterexample shows. -/
theorem generateKey_sameCandidate_distinct (rel : String → String → Option String)
    (qs : List KeyCall) (i j : Nat) (q q' : KeyCall)
    (hij : i < j) (hi : qs[i]? = some q) (hj : qs[j]? = some q')
    (hc : candidateKey rel q = candidateKey rel q') :
    (runGenerateKeys rel qs zeroCtr)[i]? ≠ (runGenerateKeys rel qs zeroCtr)[j]? := by
  rw [runGenerateKeys_getElem? rel qs zeroCtr i q hi,
    runGenerateKeys_getElem? rel qs zeroCtr j q' hj]
  intro h
  have h' := Option.some.inj h
  have hcc : candidateKey rel q' = candidateKey rel q := hc.symm
  rw [hcc] at h'
  simp only [zeroCtr, Nat.zero_add] at h'
  have e1 := candCount_take_succ rel qs i q hi
  have e2 := candCount_take_succ rel qs j q' hj
  rw [hcc] at e2
  have e3 : candCount rel (candidateKey rel q) (qs.take (i + 1)) ≤
      candCount rel (candidateKey rel q) (qs.take j) :=
    candCount_take_mono rel (candidateKey rel q) qs (by omega)
  exact finalKey_ne (candidateKey rel q) _ _ (by omega) (by omega) h'

/-- C1, witness for the amended theorem: the first two calls of `cexCalls`
share the candidate key `x.a` and indeed receive distinct keys. -/
theorem generateKey_sameCandidate_distinct_witness :
    (runGenerateKeys relId cexCalls zeroCtr)[0]? ≠ (runGenerateKeys relId cexCalls zeroCtr)[1]? :=
  generateKey_sameCandidate_distinct relId cexCalls 0 1
    ⟨"x.vue", ".", "a", 30⟩ ⟨"x.vue", ".", "a", 30⟩
    (by decide) (by decide) (by decide) rfl

/-- C2: under the rewriter's precondition (spans well-formed,
non-overlapping, sorted by start offset descending), `replaceInFile` equals
the specification's fold, and every byte strictly outside all
`[StartByte, EndByte)` ranges is preserved verbatim: the original byte at
offset `i` reappears at the offset shifted by the net size change of the
replacements that lie entirely below `i`. -/
theorem replaceInFile_fold_preserves (content : List Char) (ms : List Match)
    (h : spansWF content.length ms = true) :
    replaceInFile content ms = rewriteSpec content ms ∧
    ∀ i, i < content.length → (∀ m ∈ ms, i < m.StartByte ∨ m.EndByte ≤ i) →
      (replaceInFile content ms)[i + addedBelow ms i - removedBelow ms i]? = content[i]? := by
  obtain ⟨hb, hd⟩ := spansWF_iff.mp h
  exact ⟨replaceInFile_eq_rewriteSpec ms content,
    fun i hi hout => replaceInFile_getElem_aux ms content hb hd i hi hout⟩

/-- C2, witness: the specification's own example — rewriting `"<p>Hello</p>"`
with the single span `mWitness` preserves the byte at offset 0. -/
theorem replaceInFile_fold_preserves_witness :
    (replaceInFile "<p>Hello</p>".data
        [mWitness])[0 + addedBelow [mWitness] 0 - removedBelow [mWitness] 0]? =
      "<p>Hello</p>".data[0]? :=
  (replaceInFile_fold_preserves "<p>Hello</p>".data [mWitness] (by decide)).2 0
    (by decide) (by decide)

/-- C3: the catalog merge inserts a new entry only when its key is absent,
never replacing a pre-existing key's value: a lookup in the merged catalog
returns the existing catalog's value whenever the key is present there, and
the new entries' value otherwise; and the specification's concrete example
merges as stated. -/
theorem mergeTranslations_existing_wins (existing news : List (String × String)) (k : String) :
    lookupKey k (mergeTranslations existing news) =
      (lookupKey k existing).orElse (fun _ => lookupKey k news) ∧
    mergeTranslations [("a.b", "Old")] [("a.b", "New"), ("c.d", "Added")] =
      [("a.b", "Old"), ("c.d", "Added")] :=
  ⟨lookupKey_mergeTranslations news existing k, by decide⟩

/-- C4: the lines-73-94 copy of `generateKey` does **not** compute the path
stem from the relative-to-basePath form: line 79 overwrites the `filepath.Rel`
result with `strings.TrimSpace(path)`, so the stem always comes from the raw
path, whatever `rel` does.  At `filePath = "/base/app.vue"`,
`basePath = "/base"` (where `filepath.Rel` succeeds with `"app.vue"`) it
yields `".base.app.hi"` instead of the claim's `"app.hi"`; its sibling copy
at lines 659-689 implements the claim.  (`slug.Make` with `MaxLength = 30`
maps `"Hi"` to `"hi"`, as does the instantiation used.) -/
theorem generateKey_line73_ignores_relative_path :
    (∀ rel : String → String → Option String,
      (generateKeyLine73 rel (fun n t => slugify t n) "/base/app.vue" "/base" "Hi" 30 zeroCtr).1
        = ".base.app.hi") ∧
    (generateKey relBaseApp "/base/app.vue" "/base" "Hi" 30 zeroCtr).1 = "app.hi" ∧
    (".base.app.hi" : String) ≠ "app.hi" :=
  ⟨fun _ => rfl, by decide, by decide⟩

/-- C5, counterexample: a read failure that is **not** file-absence (a
present but unreadable catalog) is not surfaced: `writeLocaleFile` proceeds
with an empty catalog, succeeds, and its output discards the existing
entries — the claim says any non-absence read failure is returned to the
caller. -/
theorem writeLocaleFile_swallows_read_error_cex :
    writeLocaleFile (Disk.unreadable (FileData.valid [("a.b", "Old")])) [("c.d", "New")] =
      Except.ok (marshalLocale [("c.d", "New")]) := rfl

/-- C5, amended: `writeLocaleFile` returns an error exactly when the catalog
file is readable but not valid JSON-mapping content (then the on-disk file
is untouched, the error being returned before the final write); **any** read
failure — absence or otherwise — is swallowed and treated as an empty
catalog. -/
theorem writeLocaleFile_failure_semantics (disk : Disk) (tr : List (String × String)) :
    ((writeLocaleFile disk tr).isOk = false ↔ disk = Disk.file FileData.invalid) ∧
    ((writeLocaleFile disk tr = Except.error "failed to parse existing locale file") ↔
      disk = Disk.file FileData.invalid) ∧
    writeLocaleFile Disk.absent tr = Except.ok (marshalLocale (mergeTranslations [] tr)) ∧
    ∀ d : FileData, writeLocaleFile (Disk.unreadable d) tr = writeLocaleFile Disk.absent tr := by
  refine ⟨?_, ?_, rfl, fun d => rfl⟩
  · cases disk with
    | file d =>
      cases d <;>
        simp [writeLocaleFile, readCatalog, unmarshalCatalog, Except.isOk, Except.toBool]
    | absent => simp [writeLocaleFile, readCatalog, Except.isOk, Except.toBool]
    | unreadable d => simp [writeLocaleFile, readCatalog, Except.isOk, Except.toBool]
  · cases disk with
    | file d =>
      cases d <;> simp [writeLocaleFile, readCatalog, unmarshalCatalog]
    | absent => simp [writeLocaleFile, readCatalog]
    | unreadable d => simp [writeLocaleFile, readCatalog]

/-- C6: `slugify` behaves as claimed: the two specification examples hold,
the result never exceeds `maxLen` characters, every result character is in
`[a-z0-9-]`, and the result is a prefix (a `take`) of the lower-cased,
run-squashed, hyphen-trimmed base slug — i.e. truncation only cuts at the
end, at a word boundary when one exists. -/
theorem slugify_claim (text : String) (maxLen : Nat) :
    slugify "hello world wonderful" 8 = "hello" ∧
    slugify "abcdefgh" 5 = "abcde" ∧
    (slugify text maxLen).length ≤ maxLen ∧
    (∀ c ∈ (slugify text maxLen).data, isAlnumLower c = true ∨ c = '-') ∧
    ∃ k, (slugify text maxLen).data = (slugBase text).take k := by
  obtain ⟨hlen, k, hk⟩ := slugify_take_slugBase text maxLen
  refine ⟨by decide, by decide, hlen, ?_, ⟨k, hk⟩⟩
  intro c hc
  rw [hk] at hc
  have h1 : c ∈ slugBase text := List.take_subset k _ hc
  have h2 : c ∈ squashRuns false (text.data.map Char.toLower) := mem_trimHyphens h1
  exact squashRuns_chars _ false c h2

/-- C6, witness: the theorem instantiated at a concrete input. -/
theorem slugify_claim_witness : slugify "hello world wonderful" 8 = "hello" :=
  (slugify_claim "" 0).1

/-- C7: within one run, the calls whose candidate key is `c` receive, in
first-seen order, the keys `c`, `c-2`, `c-3`, …: the i-th call's key is the
bare candidate when it is the first occurrence of that candidate, and
`candidate-n` when it is the n-th occurrence. -/
theorem generateKey_occurrence_suffixing (rel : String → String → Option String)
    (qs : List KeyCall) (i : Nat) (q : KeyCall) (hq : qs[i]? = some q) :
    (runGenerateKeys rel qs zeroCtr)[i]? =
      some (if candCount rel (candidateKey rel q) (qs.take (i + 1)) = 1
            then candidateKey rel q
            else candidateKey rel q ++ "-" ++
              natToDec (candCount rel (candidateKey rel q) (qs.take (i + 1)))) := by
  rw [runGenerateKeys_getElem? rel qs zeroCtr i q hq]
  have e1 := candCount_take_succ rel qs i q hq
  congr 1
  simp only [zeroCtr, Nat.zero_add, finalKey]
  by_cases h1 : candCount rel (candidateKey rel q) (qs.take (i + 1)) = 1
  · rw [if_pos h1, h1]
    simp
  · have h2 : 1 < candCount rel (candidateKey rel q) (qs.take (i + 1)) := by omega
    rw [if_pos h2, if_neg h1]

/-- C7, witness: in the run `cexCalls`, call 1 is the second occurrence of
candidate `x.a` and receives `x.a-2`. -/
theorem generateKey_occurrence_suffixing_witness :
    (runGenerateKeys relId cexCalls zeroCtr)[1]? = some "x.a-2" := by
  rw [generateKey_occurrence_suffixing relId cexCalls 1 ⟨"x.vue", ".", "a", 30⟩ (by decide)]
  decide

/-- C8: on a successful catalog write, the serialized output is the 2-space
indented JSON rendering of the merged entries in ascending key order: the
serialized entry list is sorted by key, has pairwise distinct keys, and
consists of exactly the union of the existing entries and the new entries
whose keys were absent. -/
theorem writeLocaleFile_sorted_union (existing tr : List (String × String))
    (htr : (tr.map Prod.fst).Nodup) (hex : (existing.map Prod.fst).Nodup) :
    writeLocaleFile (Disk.file (FileData.valid existing)) tr =
      Except.ok (renderLocaleJson (List.insertionSort keyLE (mergeTranslations existing tr))) ∧
    List.Sorted keyLE (List.insertionSort keyLE (mergeTranslations existing tr)) ∧
    ((List.insertionSort keyLE (mergeTranslations existing tr)).map Prod.fst).Nodup ∧
    ∀ p : String × String,
      p ∈ List.insertionSort keyLE (mergeTranslations existing tr) ↔
        p ∈ existing ∨ (p ∈ tr ∧ lookupKey p.1 existing = none) := by
  refine ⟨rfl, List.sorted_insertionSort keyLE _, ?_, ?_⟩
  · have hperm := (List.perm_insertionSort keyLE (mergeTranslations existing tr)).map Prod.fst
    exact hperm.nodup_iff.mpr (nodup_keys_mergeTranslations tr existing hex)
  · intro p
    rw [List.mem_insertionSort]
    exact mem_mergeTranslations_iff tr existing htr p

/-- C8, witness: the theorem at the specification's merge example. -/
theorem writeLocaleFile_sorted_union_witness :
    writeLocaleFile (Disk.file (FileData.valid [("a.b", "Old")]))
        [("a.b", "New"), ("c.d", "Added")] =
      Except.ok (renderLocaleJson (List.insertionSort keyLE
        (mergeTranslations [("a.b", "Old")] [("a.b", "New"), ("c.d", "Added")]))) :=
  (writeLocaleFile_sorted_union [("a.b", "Old")] [("a.b", "New"), ("c.d", "Added")]
    (by decide) (by decide)).1

/-- C9: `generateKey` is deterministic — two runs over the same call
sequence, each from a fresh empty counter, produce identical key sequences
(all state of the Go function is the explicit counter, made an explicit
value here, so a run is a pure function of its inputs). -/
theorem generateKey_deterministic (rel : String → String → Option String)
    (qs₁ qs₂ : List KeyCall) (h : qs₁ = qs₂) :
    runGenerateKeys rel qs₁ zeroCtr = runGenerateKeys rel qs₂ zeroCtr := by
  rw [h]

/-- C9, witness: two runs over `cexCalls` agree. -/
theorem generateKey_deterministic_witness :
    runGenerateKeys relId cexCalls zeroCtr = runGenerateKeys relId cexCalls zeroCtr :=
  generateKey_deterministic relId cexCalls cexCalls rfl

/-- C10: under the precondition (non-overlapping spans,
`StartByte ≤ EndByte ≤ length`, descending `StartByte` order), every slice
taken inside the `replaceInFile` loop is within the bounds of the current
buffer: the bounds-checked variant never fails and agrees with the total
function. -/
theorem replaceInFile_in_bounds (content : List Char) (ms : List Match)
    (h : spansWF content.length ms = true) :
    replaceInFileChecked content ms = some (replaceInFile content ms) := by
  obtain ⟨hb, hd⟩ := spansWF_iff.mp h
  exact replaceInFileChecked_aux ms content hb hd

/-- C10, witness: two descending non-overlapping spans of `"abcdefgh"`. -/
theorem replaceInFile_in_bounds_witness :
    replaceInFileChecked "abcdefgh".data msC10 = some (replaceInFile "abcdefgh".data msC10) :=
  replaceInFile_in_bounds "abcdefgh".data msC10 (by decide)

end LocaleTool
